import Mathlib

/-!
# go-db.v1 : key codec and store facade

A shallow embedding of `key.go` and `db.go`.

* A Go `[]byte` and the bytes of a Go `string` are both lists of byte values (`Bytes`);
  the conversions `[]byte(s)` and `string(b)` are the identity on them.
* `Key` (`type Key uint32`) is a natural number below `2^32`, every operation on it reduced
  modulo `2^32`; it is written `Nat` in the signatures.
* Go's `int` (the `page`, `size`, `total`, `begin` and `end` of `ForS`) is taken to be 64 bits
  wide: an integer, every operation wrapped by `wrapInt`.
* Go's `error` is `Option Error`, with `none` for `nil`.
* An index out of range (a Go panic) is `none` in the `Option` result of the function.
* The log written by `DB.print` is not part of the state.
-/

namespace GoDB

/-! ## Data model -/

/-- A Go byte slice, or the bytes of a Go string. -/
abbrev Bytes := List Nat

/-- The values of Go's `error` interface that the facade tells apart:
`bitcask.ErrKeyNotFound` and every other error. -/
inductive Error where
  | ErrKeyNotFound
  | other
deriving DecidableEq

/-- Go's `int`, 64 bits wide: the two's complement wrap of an integer result. -/
def wrapInt (x : Int) : Int := (x + 2 ^ 63) % 2 ^ 64 - 2 ^ 63

/-! ## Key codec (`key.go`) -/

/-- Modelled from the spec: `strconv.FormatUint(u, 10)` (Go's standard library), the base-10
numeral of `u` without leading zeros, built from the last digit backwards; `fuel` bounds the
number of digits. -/
def FormatUint.digits : Nat → Nat → Bytes → Bytes
  | 0, _, acc => acc
  | fuel + 1, u, acc =>
    if u < 10 then (48 + u) :: acc
    else FormatUint.digits fuel (u / 10) ((48 + u % 10) :: acc)

/-- Modelled from the spec: `strconv.FormatUint(u, 10)`, the base-10 numeral of `u`. -/
def FormatUint (u : Nat) : Bytes := FormatUint.digits (u + 1) u []

/-- Modelled from the spec: one turn of the loop of `strconv.ParseUint(s, 10, 32)` on the
byte `c`; `none` is a returned error: a byte that is not a digit `0` to `9` is a syntax
error, a value above `2^32 - 1` is a range error. -/
def ParseUint.step (acc : Option Nat) (c : Nat) : Option Nat :=
  match acc with
  | none => none
  | some n =>
    if 48 ≤ c ∧ c ≤ 57 then
      if n * 10 + (c - 48) > 2 ^ 32 - 1 then none else some (n * 10 + (c - 48))
    else none

/-- Modelled from the spec: `strconv.ParseUint(s, 10, 32)` (Go's standard library); `none`
when the returned error is not nil, which includes the empty string. -/
def ParseUint (s : Bytes) : Option Nat :=
  if s.length = 0 then none else s.foldl ParseUint.step (some 0)

/-- Source `func (k Key) String() string`. -/
def Key.String (k : Nat) : Bytes := FormatUint k

/-- Source `func KeyFromString(s string) Key`. -/
def KeyFromString (s : Bytes) : Nat :=
  match ParseUint s with
  | none => 0
  | some u => u % 2 ^ 32

/-- Source `func (k Key) bytes() []byte`: the marker `@k`, then the four bytes of `k`,
least significant first. -/
def Key.bytes (k : Nat) : Bytes :=
  [64, 107, k % 256, (k / 2 ^ 8) % 256, (k / 2 ^ 16) % 256, (k / 2 ^ 24) % 256]

/-- Source `func keyBytes(bytes []byte) Key`. The `||` chain is evaluated left to right and
stops at the first true operand; an index expression out of range gives `none`. -/
def keyBytes (bytes : Bytes) : Option Nat :=
  if bytes.length ≠ 6 then some 0 else do
    let b0 ← bytes[0]?
    if b0 ≠ 64 then some 0 else do
      let b1 ← bytes[1]?
      if b1 ≠ 107 then some 0 else do
        let b2 ← bytes[2]?
        let b3 ← bytes[3]?
        let b4 ← bytes[4]?
        let b5 ← bytes[5]?
        some ((b2 + b3 * 2 ^ 8 % 2 ^ 32 + b4 * 2 ^ 16 % 2 ^ 32 + b5 * 2 ^ 24 % 2 ^ 32) % 2 ^ 32)

/-! ## External collaborators -/

/-- Modelled from the spec: the underlying store (`bitcask.Bitcask`, an external package),
by its contract "byte-keyed get/put/delete/delete-all/exists/scan-by-prefix/fold-over-all-keys".
The entries are listed in the store's native scan order; every operation of this in-memory
store succeeds, so the only error it reports is `ErrKeyNotFound`. -/
structure Bitcask where
  entries : List (Bytes × Bytes)
deriving DecidableEq

/-- The keys of the store, in native scan order. -/
def Bitcask.keys (b : Bitcask) : List Bytes := b.entries.map Prod.fst

/-- Store operation `Has(key)`. -/
def Bitcask.Has (b : Bitcask) (key : Bytes) : Bool := b.keys.contains key

/-- Store operation `Get(key)`: the stored bytes, or `nil` and `ErrKeyNotFound`. -/
def Bitcask.Get (b : Bitcask) (key : Bytes) : Option Bytes × Option Error :=
  match b.entries.lookup key with
  | some data => (some data, none)
  | none => (none, some Error.ErrKeyNotFound)

/-- Store operation `Put(key, value)`: replaces the value of a present key, adds an absent one. -/
def Bitcask.Put (b : Bitcask) (key value : Bytes) : Bitcask × Option Error :=
  if b.Has key then
    (⟨b.entries.map (fun e => if e.1 = key then (key, value) else e)⟩, none)
  else
    (⟨b.entries ++ [(key, value)]⟩, none)

/-- Store operation `Delete(key)`. -/
def Bitcask.Delete (b : Bitcask) (key : Bytes) : Bitcask × Option Error :=
  (⟨b.entries.filter (fun e => e.1 ≠ key)⟩, none)

/-- Store operation `DeleteAll()`. -/
def Bitcask.DeleteAll (_b : Bitcask) : Bitcask × Option Error := (⟨[]⟩, none)

/-- Store operation `Fold(f)`: calls `f` on every key; `acc` is the state that the callback
closes over. -/
def Bitcask.Fold {σ : Type} (b : Bitcask) (f : σ → Bytes → σ) (acc : σ) : σ :=
  b.keys.foldl f acc

/-- Store operation `Scan(prefix, f)`: calls `f` on every key that begins with the prefix. -/
def Bitcask.Scan {σ : Type} (b : Bitcask) (pfx : Bytes) (f : σ → Bytes → σ) (acc : σ) : σ :=
  (b.keys.filter (fun k => pfx.isPrefixOf k)).foldl f acc

/-- Modelled from the spec: the generic value encoding (`encoding/gob`, an external package)
for values of type `α`. `Encode` gives the bytes written to the buffer and the error;
`Decode data v` gives the content of the target, which held `v`, after decoding, and the error.
`zero` is `reflect.Zero` of the type. -/
structure Gob (α : Type) where
  zero : α
  Encode : α → Bytes × Option Error
  Decode : Bytes → α → α × Option Error

/-- Modelled from the spec: `sort.Strings` (Go's standard library) sorts in increasing
byte-wise lexicographic order. -/
def sortStrings (all : List Bytes) : List Bytes := all.insertionSort (· ≤ ·)

/-- The slice expression `all[begin:end]`; out of range bounds give `none`. -/
def slice (all : List Bytes) (begin end_ : Int) : Option (List Bytes) :=
  if 0 ≤ begin ∧ begin ≤ end_ ∧ end_ ≤ (all.length : Int) then
    some ((all.drop begin.toNat).take (end_.toNat - begin.toNat))
  else none

/-! ## Store facade (`db.go`) -/

/-- Source `type DB struct`; the `name` field is only used in log lines. -/
structure DB where
  intern : Bitcask
  maxIndex : Nat
deriving DecidableEq

/-- Source `func New(name string, opt ...bitcask.Option) (db *DB)`, given the opened store:
folds over all keys and keeps the largest decoded numeric key in `maxIndex`. -/
def New (intern : Bitcask) : Option DB :=
  intern.Fold (fun (acc : Option DB) (key : Bytes) => do
    let db ← acc
    let k ← keyBytes key
    if k > db.maxIndex then some { db with maxIndex := k } else some db)
    (some { intern := intern, maxIndex := 0 })

/-- Source `func (db *DB) print(err error, key []byte) bool`. The body of `if err != nil`
only logs, and control reaches the single `return false` in both cases. -/
def DB.print (_db : DB) (err : Option Error) (_key : Bytes) : Bool :=
  match err with
  | some _ => false
  | none => false

/-- Source `func (db *DB) New() Key`: `db.maxIndex++` then `return db.maxIndex - 1`. -/
def DB.New (db : DB) : Nat × DB :=
  let db1 : DB := { db with maxIndex := (db.maxIndex + 1) % 2 ^ 32 }
  ((db1.maxIndex + 2 ^ 32 - 1) % 2 ^ 32, db1)

/-- Source `func (db *DB) Unknown(key Key) bool`. -/
def DB.Unknown (db : DB) (key : Nat) : Bool := !db.intern.Has (Key.bytes key)

/-- Source `func (db *DB) UnknownS(key string) bool`. -/
def DB.UnknownS (db : DB) (key : Bytes) : Bool := !db.intern.Has key

/-- Source `func (db *DB) Delete(key Key)`. -/
def DB.Delete (db : DB) (key : Nat) : DB :=
  let k := Key.bytes key
  let r := db.intern.Delete k
  let _ := db.print r.2 k
  { db with intern := r.1 }

/-- Source `func (db *DB) DeleteS(key string)`. -/
def DB.DeleteS (db : DB) (key : Bytes) : DB :=
  let r := db.intern.Delete key
  let _ := db.print r.2 key
  { db with intern := r.1 }

/-- Source `func (db *DB) DeleteAll()`. -/
def DB.DeleteAll (db : DB) : DB :=
  let db1 : DB := { db with maxIndex := 0 }
  let r := db1.intern.DeleteAll
  let _ := db1.print r.2 []
  { db1 with intern := r.1 }

/-- Source `func (db *DB) parse(key []byte, v interface{}) (noExist bool)`: the result, the
content of the target `v` on return, and the state of the DB. -/
def DB.parse {α : Type} (db : DB) (g : Gob α) (key : Bytes) (_v : α) : Bool × α × DB :=
  let v := g.zero
  let r := db.intern.Get key
  if r.2 = some Error.ErrKeyNotFound then (true, v, db)
  else if db.print r.2 key then (true, v, db)
  else
    let d := g.Decode (r.1.getD []) v
    if db.print d.2 key then
      (true, d.1, { db with intern := (db.intern.Delete key).1 })
    else (false, d.1, db)

/-- Source `func (db *DB) Get(key Key, v interface{}) (noExist bool)`. -/
def DB.Get {α : Type} (db : DB) (g : Gob α) (key : Nat) (v : α) : Bool × α × DB :=
  db.parse g (Key.bytes key) v

/-- Source `func (db *DB) GetS(key string, v interface{}) (noExist bool)`. -/
def DB.GetS {α : Type} (db : DB) (g : Gob α) (key : Bytes) (v : α) : Bool × α × DB :=
  db.parse g key v

/-- Source `func (db *DB) GetRaw(key Key) []byte`; `none` is the `nil` slice. -/
def DB.GetRaw (db : DB) (key : Nat) : Option Bytes :=
  let k := Key.bytes key
  let r := db.intern.Get k
  if r.2 ≠ some Error.ErrKeyNotFound then none
  else
    let _ := db.print r.2 k
    r.1

/-- Source `func (db *DB) GetSRaw(key string) []byte`; `none` is the `nil` slice. -/
def DB.GetSRaw (db : DB) (key : Bytes) : Option Bytes :=
  let r := db.intern.Get key
  if r.2 ≠ some Error.ErrKeyNotFound then none
  else
    let _ := db.print r.2 key
    r.1

/-- The first block of `ForS`: `if filter == nil { filter = func(string) bool { return true } }`. -/
def DB.filterOrAll (filter : Option (Bytes → Bool)) : Bytes → Bool :=
  match filter with
  | none => fun _ => true
  | some f => f

/-- The callback that `ForS` passes to `Scan`: it closes over `total` and `all`. -/
def DB.scanStep (filter : Bytes → Bool) (acc : Int × List Bytes) (key : Bytes) :
    Int × List Bytes :=
  if filter key then (wrapInt (acc.1 + 1), acc.2 ++ [key]) else acc

/-- The "Get a page" block of `ForS`: the keys left in `all`. -/
def DB.page (page size : Int) (all : List Bytes) : Option (List Bytes) :=
  if size ≠ 0 then
    let all := sortStrings all
    let begin := wrapInt (page * size)
    let begin := if begin < 0 ∨ begin > (all.length : Int) then 0 else begin
    let end_ := wrapInt (size + begin)
    let end_ := if end_ > (all.length : Int) ∨ end_ < begin then (all.length : Int) else end_
    slice all begin end_
  else some all

/-- One turn of the `for _, key := range all` loop of `ForS`: the arguments of the call
`f.Call` made in this turn, or `none` when the turn ends in `continue`. -/
def DB.visit {α : Type} (db : DB) (g : Gob α) (key : Bytes) : Option (Bytes × α) :=
  let r := db.intern.Get key
  if db.print r.2 key then none
  else
    let d := g.Decode (r.1.getD []) g.zero
    if db.print d.2 key then none
    else some (key, d.1)

/-- Source `func (db *DB) ForS(prefix string, page, size int, filter func(string) bool,
it interface{}) (total int)`, for a visitor `it` of type `func(string, α)`: the returned
`total` and the list of the calls made to the visitor, in order. A `nil` filter is `none`.
The reflection test on `it` holds by typing, and the visitor is taken not to write to the DB. -/
def DB.ForS {α : Type} (db : DB) (g : Gob α) (pfx : Bytes) (page size : Int)
    (filter : Option (Bytes → Bool)) : Option (Int × List (Bytes × α)) :=
  let filter : Bytes → Bool := DB.filterOrAll filter
  let r := db.intern.Scan pfx (DB.scanStep filter) (0, [])
  match DB.page page size r.2 with
  | none => none
  | some all => some (r.1, all.filterMap (db.visit g))

/-- Source `func (db *DB) set(k []byte, v interface{})`. -/
def DB.set {α : Type} (db : DB) (g : Gob α) (k : Bytes) (v : α) : DB :=
  let w := g.Encode v
  if db.print w.2 k then db
  else
    let r := db.intern.Put k w.1
    let _ := db.print r.2 k
    { db with intern := r.1 }

/-- Source `func (db *DB) Set(key Key, v interface{})`. -/
def DB.Set {α : Type} (db : DB) (g : Gob α) (key : Nat) (v : α) : DB :=
  db.set g (Key.bytes key) v

/-- Source `func (db *DB) SetS(key string, v interface{})`. -/
def DB.SetS {α : Type} (db : DB) (g : Gob α) (key : Bytes) (v : α) : DB :=
  db.set g key v

/-- Source `func (db *DB) SetRaw(key Key, raw []byte)`. -/
def DB.SetRaw (db : DB) (key : Nat) (raw : Bytes) : DB :=
  let k := Key.bytes key
  let r := db.intern.Put k raw
  let _ := db.print r.2 k
  { db with intern := r.1 }

/-- Source `func (db *DB) SetSRaw(key string, raw []byte)`. -/
def DB.SetSRaw (db : DB) (key : Bytes) (raw : Bytes) : DB :=
  let r := db.intern.Put key raw
  let _ := db.print r.2 key
  { db with intern := r.1 }

/-! ## Auxiliary definitions for the statements -/

/-- The keys returned by `n` consecutive calls of `DB.New`, and the state after them. -/
def DB.NewN : Nat → DB → List Nat × DB
  | 0, db => ([], db)
  | n + 1, db =>
    let r := db.New
    let rs := DB.NewN n r.2
    (r.1 :: rs.1, rs.2)

/-- The keys of the store that begin with the prefix and pass the filter (a `nil` filter
passes every key), in native scan order. -/
def matching (b : Bitcask) (pfx : Bytes) (filter : Option (Bytes → Bool)) : List Bytes :=
  b.keys.filter (fun k => pfx.isPrefixOf k && (match filter with
    | none => true
    | some f => f k))

/-- The keys on which a run of `ForS` called the visitor, in call order; `[]` if it panicked. -/
def visited {α : Type} (r : Option (Int × List (Bytes × α))) : List Bytes :=
  match r with
  | none => []
  | some x => x.2.map Prod.fst

/-- A one-byte codec for concrete runs: a value below 256 is encoded as its single byte,
any other value is an encoding error; exactly one byte decodes, to its value, and any other
input is a decoding error that leaves the target as it was. -/
def byteGob : Gob Nat where
  zero := 0
  Encode := fun v => if v < 256 then ([v], none) else ([], some Error.other)
  Decode := fun data v =>
    match data with
    | [b] => (b, none)
    | _ => (v, some Error.other)

/-- The number that a string of decimal digits denotes. -/
def decimalValue (s : Bytes) : Nat := s.foldl (fun n c => n * 10 + (c - 48)) 0

/-- The empty store. -/
def emptyStore : Bitcask := ⟨[]⟩

/-- A store of five string keys `"a"` to `"e"`, listed out of order, each holding one byte. -/
def fiveKeys : DB :=
  ⟨⟨[([99], [3]), ([97], [1]), ([101], [5]), ([98], [2]), ([100], [4])]⟩, 0⟩

/-- A store of three string keys; the value of `"a"` is two bytes, which `byteGob` fails to
decode. -/
def corruptA : DB := ⟨⟨[([99], [3]), ([97], [1, 1]), ([98], [2])]⟩, 0⟩

/-- A store that holds the single string key `"a"` with the one-byte value 5. -/
def oneKey : DB := ⟨⟨[([97], [5])]⟩, 0⟩

/-- A filter for concrete runs: it passes every key but `"c"`. -/
def notC (k : Bytes) : Bool := decide (k ≠ [99])

/-! ## Key codec: round trip and rejection -/

theorem keyBytes_of_six (b0 b1 b2 b3 b4 b5 : Nat) :
    keyBytes [b0, b1, b2, b3, b4, b5] =
      if b0 ≠ 64 then some 0 else if b1 ≠ 107 then some 0 else
        some ((b2 + b3 * 2 ^ 8 % 2 ^ 32 + b4 * 2 ^ 16 % 2 ^ 32 + b5 * 2 ^ 24 % 2 ^ 32) % 2 ^ 32) := by
  simp only [keyBytes]
  split_ifs <;> simp_all

theorem le_bytes_sum (k : Nat) (hk : k < 2 ^ 32) :
    (k % 256 + k / 2 ^ 8 % 256 * 2 ^ 8 % 2 ^ 32 + k / 2 ^ 16 % 256 * 2 ^ 16 % 2 ^ 32 +
        k / 2 ^ 24 % 256 * 2 ^ 24 % 2 ^ 32) % 2 ^ 32 = k := by
  simp only [Nat.reducePow] at hk ⊢
  omega

/-- C1: for every 32-bit key `k`, decoding the encoded key gives `k` back:
`keyBytes(k.bytes()) == k`. -/
theorem keyBytes_bytes (k : Nat) (hk : k < 2 ^ 32) : keyBytes (Key.bytes k) = some k := by
  rw [Key.bytes, keyBytes_of_six]
  simp only [ne_eq, not_true_eq_false, if_false, Option.some.injEq]
  exact le_bytes_sum k hk

theorem keyBytes_bytes_witness :
    (0x12345678 : Nat) < 2 ^ 32 ∧ keyBytes (Key.bytes 0x12345678) = some 0x12345678 :=
  ⟨by decide, keyBytes_bytes 0x12345678 (by decide)⟩

/-- C10: for every byte string `b` (the nil slice is `[]`) whose length is not exactly 6, or
whose first two bytes are not `@`, `k`, `keyBytes(b)` returns 0, and it does so without an
index out of range (the result is `some`). -/
theorem keyBytes_invalid (b : Bytes)
    (h : b.length ≠ 6 ∨ ¬ (b[0]? = some 64 ∧ b[1]? = some 107)) : keyBytes b = some 0 := by
  by_cases hl : b.length = 6
  · match b, hl with
    | [b0, b1, b2, b3, b4, b5], _ =>
      rw [keyBytes_of_six]
      simp at h
      split_ifs with h0 h1
      · rfl
      · rfl
      · simp at h0 h1
        exact absurd h1 (h h0)
  · simp [keyBytes, hl]

theorem keyBytes_invalid_witness :
    (([64, 120, 0x78, 0x56, 0x34, 0x12] : Bytes).length ≠ 6 ∨
        ¬ (([64, 120, 0x78, 0x56, 0x34, 0x12] : Bytes)[0]? = some 64 ∧
          ([64, 120, 0x78, 0x56, 0x34, 0x12] : Bytes)[1]? = some 107)) ∧
      keyBytes [64, 120, 0x78, 0x56, 0x34, 0x12] = some 0 :=
  ⟨by decide, keyBytes_invalid [64, 120, 0x78, 0x56, 0x34, 0x12] (by decide)⟩

/-! ## The error helper -/

theorem print_eq_false (db : DB) (err : Option Error) (key : Bytes) :
    db.print err key = false := by
  cases err <;> rfl

/-! ## Raw access -/

theorem Get_nil_of_notFound (b : Bitcask) (key : Bytes)
    (h : (b.Get key).2 = some Error.ErrKeyNotFound) : (b.Get key).1 = none := by
  unfold Bitcask.Get at h ⊢
  cases hl : b.entries.lookup key with
  | none => rfl
  | some d => simp [hl] at h

/-- Whatever the store holds, `GetSRaw` returns the nil slice. -/
theorem GetSRaw_eq_nil (db : DB) (key : Bytes) : db.GetSRaw key = none := by
  unfold DB.GetSRaw
  by_cases h : (db.intern.Get key).2 = some Error.ErrKeyNotFound
  · simp [h, Get_nil_of_notFound db.intern key h]
  · simp [h]

/-- Whatever the store holds, `GetRaw` returns the nil slice. -/
theorem GetRaw_eq_nil (db : DB) (key : Nat) : db.GetRaw key = none :=
  GetSRaw_eq_nil db (Key.bytes key)

/-- C2, at the failing input: after `SetRaw(1, b)` and `SetSRaw("a", b)` with `b = [1, 2, 3]`
on the empty store, the store holds `b` under both keys, and `GetRaw(1)` and `GetSRaw("a")`
both return nil instead of `b`. -/
theorem GetRaw_after_SetRaw :
    ((DB.SetRaw ⟨emptyStore, 0⟩ 1 [1, 2, 3]).intern.Get (Key.bytes 1) = (some [1, 2, 3], none) ∧
        (DB.SetRaw ⟨emptyStore, 0⟩ 1 [1, 2, 3]).GetRaw 1 = none) ∧
      ((DB.SetSRaw ⟨emptyStore, 0⟩ [97] [1, 2, 3]).intern.Get [97] = (some [1, 2, 3], none) ∧
        (DB.SetSRaw ⟨emptyStore, 0⟩ [97] [1, 2, 3]).GetSRaw [97] = none) := by
  decide

/-! ## Typed access -/

/-- C3, at the failing input: the key `"a"` (and the numeric key 1) holds the two bytes
`[1, 2]`, which `byteGob` fails to decode; `GetS` (and `Get`) return `noExist = false`, and
the store still holds the entry afterwards. -/
theorem Get_corrupt_entry :
    (byteGob.Decode [1, 2] byteGob.zero).2 = some Error.other ∧
      DB.GetS ⟨⟨[([97], [1, 2])]⟩, 0⟩ byteGob [97] 7 = (false, 0, ⟨⟨[([97], [1, 2])]⟩, 0⟩) ∧
      DB.Get ⟨⟨[(Key.bytes 1, [1, 2])]⟩, 1⟩ byteGob 1 7 =
        (false, 0, ⟨⟨[(Key.bytes 1, [1, 2])]⟩, 1⟩) ∧
      (DB.GetS ⟨⟨[([97], [1, 2])]⟩, 0⟩ byteGob [97] 7).2.2.UnknownS [97] = false := by
  decide

/-! ## Key allocation -/

/-- C4, at the failing input: the store holds the numeric key 5 and no other key; opening it
sets `maxIndex` to 5, and the first `DB.New()` returns 5, a key that is present in the store,
and the second returns 6. -/
theorem New_returns_present_key :
    New ⟨[(Key.bytes 5, [1])]⟩ = some ⟨⟨[(Key.bytes 5, [1])]⟩, 5⟩ ∧
      (DB.NewN 2 ⟨⟨[(Key.bytes 5, [1])]⟩, 5⟩).1 = [5, 6] ∧
      DB.Unknown ⟨⟨[(Key.bytes 5, [1])]⟩, 5⟩ 5 = false := by
  decide

theorem New_eq (db : DB) (h : db.maxIndex < 2 ^ 32) :
    DB.New db = (db.maxIndex, { db with maxIndex := (db.maxIndex + 1) % 2 ^ 32 }) := by
  have key : ((db.maxIndex + 1) % 2 ^ 32 + 2 ^ 32 - 1) % 2 ^ 32 = db.maxIndex := by
    simp only [Nat.reducePow] at h ⊢
    omega
  simp only [DB.New, key]

theorem NewN_range (N : Nat) : ∀ db : DB, db.maxIndex < 2 ^ 32 → db.maxIndex + N ≤ 2 ^ 32 →
    DB.NewN N db =
      (List.range' db.maxIndex N, { db with maxIndex := (db.maxIndex + N) % 2 ^ 32 }) := by
  induction N with
  | zero =>
    intro db hlt _
    have hm : (db.maxIndex + 0) % 2 ^ 32 = db.maxIndex := Nat.mod_eq_of_lt hlt
    rw [hm]
    rfl
  | succ n ih =>
    intro db hlt h
    rw [DB.NewN, New_eq db hlt]
    by_cases hn : n = 0
    · subst hn
      rfl
    · have h1 : db.maxIndex + 1 < 2 ^ 32 := by omega
      have hm : (db.maxIndex + 1) % 2 ^ 32 = db.maxIndex + 1 := Nat.mod_eq_of_lt h1
      simp only [hm]
      rw [ih _ h1 (by show db.maxIndex + 1 + n ≤ 2 ^ 32; omega)]
      simp only [List.range'_succ, Nat.add_assoc, Nat.add_comm 1 n]

/-- C9: a DB opened on the empty store has counter 0, and for every `N ≤ 2^32`, `N`
consecutive calls of `DB.New()` return exactly `0, 1, ..., N-1`; each call (from a counter in
the `uint32` range) returns the current counter and then increments it. -/
theorem New_sequence_fresh (N : Nat) (hN : N ≤ 2 ^ 32) :
    New emptyStore = some ⟨emptyStore, 0⟩ ∧
      (DB.NewN N ⟨emptyStore, 0⟩).1 = List.range N ∧
      (∀ db : DB, db.maxIndex < 2 ^ 32 →
        (DB.New db).1 = db.maxIndex ∧ (DB.New db).2.maxIndex = (db.maxIndex + 1) % 2 ^ 32) := by
  refine ⟨rfl, ?_, ?_⟩
  · rw [NewN_range N ⟨emptyStore, 0⟩ (by show 0 < 2 ^ 32; omega) (by show 0 + N ≤ 2 ^ 32; omega)]
    simp [List.range_eq_range']
  · intro db h
    rw [New_eq db h]
    exact ⟨rfl, rfl⟩

theorem New_sequence_fresh_witness :
    3 ≤ 2 ^ 32 ∧ (DB.NewN 3 ⟨emptyStore, 0⟩).1 = [0, 1, 2] :=
  ⟨by decide, (New_sequence_fresh 3 (by decide)).2.1⟩

/-! ## Scan and pagination -/

theorem visit_eq {α : Type} (db : DB) (g : Gob α) (key : Bytes) :
    db.visit g key = some (key, (g.Decode ((db.intern.Get key).1.getD []) g.zero).1) := by
  simp [DB.visit, print_eq_false]

theorem filterMap_visit_keys {α : Type} (db : DB) (g : Gob α) (all : List Bytes) :
    (all.filterMap (db.visit g)).map Prod.fst = all := by
  induction all with
  | nil => rfl
  | cons k ks ih => simp [visit_eq, ih]

theorem wrapInt_of_range (x : Int) (h0 : -(2 ^ 63) ≤ x) (h1 : x < 2 ^ 63) : wrapInt x = x := by
  unfold wrapInt
  omega

theorem scanStep_foldl_snd (f : Bytes → Bool) (ks : List Bytes) :
    ∀ acc : Int × List Bytes, (ks.foldl (DB.scanStep f) acc).2 = acc.2 ++ ks.filter f := by
  induction ks with
  | nil => intro acc; simp
  | cons k ks ih =>
    intro acc
    rw [List.foldl_cons, ih]
    by_cases hk : f k = true
    · simp [DB.scanStep, hk]
    · simp [DB.scanStep, hk]

theorem scanStep_foldl_fst (f : Bytes → Bool) (ks : List Bytes) :
    ∀ acc : Int × List Bytes, 0 ≤ acc.1 → acc.1 + ((ks.filter f).length : Int) < 2 ^ 63 →
      (ks.foldl (DB.scanStep f) acc).1 = acc.1 + ((ks.filter f).length : Int) := by
  induction ks with
  | nil => intro acc _ _; simp
  | cons k ks ih =>
    intro acc h0 h1
    rw [List.foldl_cons]
    by_cases hk : f k = true
    · have hl : ((k :: ks).filter f).length = (ks.filter f).length + 1 := by simp [hk]
      rw [hl] at h1 ⊢
      push_cast at h1 ⊢
      have hw : wrapInt (acc.1 + 1) = acc.1 + 1 := wrapInt_of_range _ (by omega) (by omega)
      have hs : DB.scanStep f acc k = (acc.1 + 1, acc.2 ++ [k]) := by
        simp [DB.scanStep, hk, hw]
      rw [hs, ih _ (by show (0 : Int) ≤ acc.1 + 1; omega)
        (by show acc.1 + 1 + ((ks.filter f).length : Int) < 2 ^ 63; omega)]
      show acc.1 + 1 + ((ks.filter f).length : Int) = acc.1 + (((ks.filter f).length : Int) + 1)
      omega
    · have hl : (k :: ks).filter f = ks.filter f := by simp [hk]
      have hs : DB.scanStep f acc k = acc := by simp [DB.scanStep, hk]
      rw [hl] at h1 ⊢
      rw [hs, ih _ h0 h1]

theorem scan_snd (b : Bitcask) (pfx : Bytes) (filter : Option (Bytes → Bool)) :
    (b.Scan pfx (DB.scanStep (DB.filterOrAll filter)) (0, [])).2 = matching b pfx filter := by
  unfold Bitcask.Scan matching
  rw [scanStep_foldl_snd, List.filter_filter]
  cases filter <;> simp [DB.filterOrAll, Bool.and_comm]

theorem scan_fst (b : Bitcask) (pfx : Bytes) (filter : Option (Bytes → Bool))
    (hn : (matching b pfx filter).length < 2 ^ 63) :
    (b.Scan pfx (DB.scanStep (DB.filterOrAll filter)) (0, [])).1 =
      ((matching b pfx filter).length : Int) := by
  have hm := scan_snd b pfx filter
  unfold Bitcask.Scan at hm ⊢
  rw [scanStep_foldl_snd] at hm
  simp only [List.nil_append] at hm
  rw [scanStep_foldl_fst _ _ _ (le_refl _) (by rw [hm]; simp only [zero_add]; exact_mod_cast hn),
    hm]
  simp


theorem length_sortStrings (all : List Bytes) : (sortStrings all).length = all.length :=
  List.length_insertionSort _ _

theorem slice_nat (all : List Bytes) (b e : Nat) (h1 : b ≤ e) (h2 : e ≤ all.length) :
    slice all (b : Int) (e : Int) = some ((all.drop b).take (e - b)) := by
  have hc : (0 : Int) ≤ (b : Int) ∧ (b : Int) ≤ (e : Int) ∧ (e : Int) ≤ (all.length : Int) := by
    omega
  simp only [slice, hc, and_self, if_true, Int.toNat_ofNat]

/-- The "Get a page" block never slices out of range. -/
theorem page_isSome (page size : Int) (all : List Bytes) :
    ∃ w, DB.page page size all = some w := by
  unfold DB.page
  by_cases hs : size = 0
  · exact ⟨all, by simp [hs]⟩
  · simp only [ne_eq, hs, not_false_eq_true, if_true, length_sortStrings]
    generalize wrapInt (page * size) = x
    generalize hb : (if x < 0 ∨ x > (all.length : Int) then (0 : Int) else x) = b
    have hb0 : 0 ≤ b ∧ b ≤ (all.length : Int) := by
      rw [← hb]
      split_ifs with h <;> omega
    generalize wrapInt (size + b) = y
    generalize he : (if y > (all.length : Int) ∨ y < b then (all.length : Int) else y) = e
    have he0 : b ≤ e ∧ e ≤ (all.length : Int) := by
      rw [← he]
      split_ifs with h <;> omega
    have hc : 0 ≤ b ∧ b ≤ e ∧ e ≤ ((sortStrings all).length : Int) := by
      rw [length_sortStrings]
      omega
    rw [slice, if_pos hc]
    exact ⟨_, rfl⟩

theorem page_window (page size : Int) (all : List Bytes) (b s : Nat)
    (hsize : size = (s : Int)) (hprod : page * size = (b : Int))
    (hs : 0 < s) (hs2 : s < 2 ^ 63) (hb : b ≤ all.length) (hn : all.length < 2 ^ 63) :
    DB.page page size all =
      some (((sortStrings all).drop b).take (min (b + s) all.length - b)) := by
  subst hsize
  unfold DB.page
  have hne : (s : Int) ≠ 0 := by omega
  have hw : wrapInt (b : Int) = b := wrapInt_of_range _ (by omega) (by omega)
  have hc : ¬ ((b : Int) < 0 ∨ (b : Int) > (all.length : Int)) := by omega
  simp only [ne_eq, hne, not_false_eq_true, if_true, hprod, length_sortStrings, hw, hc, if_false]
  by_cases he : b + s ≤ all.length
  · have hw2 : wrapInt ((s : Int) + b) = ((b + s : Nat) : Int) := by
      rw [wrapInt_of_range _ (by omega) (by omega)]
      push_cast
      omega
    have hc2 : ¬ (((b + s : Nat) : Int) > (all.length : Int) ∨ ((b + s : Nat) : Int) < (b : Int)) := by
      omega
    rw [hw2]
    simp only [hc2, if_false]
    rw [slice_nat _ _ _ (by omega) (by rw [length_sortStrings]; exact he), Nat.min_eq_left he]
  · have hc2 : wrapInt ((s : Int) + b) > (all.length : Int) ∨ wrapInt ((s : Int) + b) < (b : Int) := by
      unfold wrapInt
      omega
    simp only [hc2, if_true]
    rw [slice_nat _ _ _ hb (by rw [length_sortStrings]),
      Nat.min_eq_right (by omega)]

theorem slice_take (all : List Bytes) (e : Nat) (h : e ≤ all.length) :
    slice all 0 (e : Int) = some (all.take e) := by
  have := slice_nat all 0 e (Nat.zero_le _) h
  simpa using this

theorem page_reset (page size : Int) (all : List Bytes) (hsz : size ≠ 0)
    (hr0 : -(2 ^ 63) ≤ size) (hr1 : size < 2 ^ 63)
    (hbeg : wrapInt (page * size) < 0 ∨ wrapInt (page * size) > (all.length : Int)) :
    DB.page page size all =
      some (if size < 0 then sortStrings all else (sortStrings all).take size.toNat) := by
  unfold DB.page
  have hw : wrapInt (size + 0) = size := by
    rw [add_zero]
    exact wrapInt_of_range _ hr0 hr1
  have hfull : slice (sortStrings all) 0 (all.length : Int) = some (sortStrings all) := by
    rw [slice_take _ _ (by rw [length_sortStrings]),
      List.take_of_length_le (by rw [length_sortStrings])]
  simp only [ne_eq, hsz, not_false_eq_true, if_true, length_sortStrings, hbeg, hw]
  by_cases hneg : size < 0
  · have hc : size > (all.length : Int) ∨ size < 0 := Or.inr hneg
    rw [if_pos hc, if_pos hneg, hfull]
  · rw [if_neg hneg]
    by_cases hbig : size > (all.length : Int)
    · rw [if_pos (Or.inl hbig), hfull,
        List.take_of_length_le (by rw [length_sortStrings]; omega)]
    · have hc : ¬ (size > (all.length : Int) ∨ size < 0) := by omega
      rw [if_neg hc]
      have hsz2 : size = ((size.toNat : Nat) : Int) := by omega
      rw [hsz2, slice_take _ _ (by rw [length_sortStrings]; omega), Int.toNat_ofNat]

theorem ForS_eq {α : Type} (db : DB) (g : Gob α) (pfx : Bytes) (page size : Int)
    (filter : Option (Bytes → Bool)) (w : List Bytes)
    (hw : DB.page page size (matching db.intern pfx filter) = some w) :
    DB.ForS db g pfx page size filter =
      some ((db.intern.Scan pfx (DB.scanStep (DB.filterOrAll filter)) (0, [])).1,
        w.filterMap (db.visit g)) := by
  unfold DB.ForS
  simp only [scan_snd, hw]

theorem visited_ForS {α : Type} (db : DB) (g : Gob α) (pfx : Bytes) (page size : Int)
    (filter : Option (Bytes → Bool)) (w : List Bytes)
    (hw : DB.page page size (matching db.intern pfx filter) = some w) :
    (DB.ForS db g pfx page size filter).isSome = true ∧
      visited (DB.ForS db g pfx page size filter) = w := by
  rw [ForS_eq db g pfx page size filter w hw]
  exact ⟨rfl, filterMap_visit_keys db g w⟩

theorem mul_lt_of_lt_pages (n s p : Nat) (h : p < (n + s - 1) / s) : p * s < n := by
  have h1 : (p + 1) * s ≤ (n + s - 1) / s * s := Nat.mul_le_mul_right s h
  have h2 := Nat.div_mul_le_self (n + s - 1) s
  have h3 : (p + 1) * s = p * s + s := Nat.succ_mul p s
  have hs : 0 < s := by
    rcases Nat.eq_zero_or_pos s with h0 | h0
    · subst h0
      simp at h
    · exact h0
  omega

theorem le_pages_mul (n s : Nat) (hs : 0 < s) : n ≤ (n + s - 1) / s * s := by
  have h1 := Nat.div_add_mod (n + s - 1) s
  have h2 := Nat.mod_lt (n + s - 1) hs
  have h3 : s * ((n + s - 1) / s) = (n + s - 1) / s * s := Nat.mul_comm _ _
  omega

theorem take_window (l : List Bytes) (b s : Nat) :
    (l.drop b).take (min (b + s) l.length - b) = (l.drop b).take s := by
  by_cases he : b + s ≤ l.length
  · rw [Nat.min_eq_left he, Nat.add_sub_cancel_left]
  · rw [Nat.min_eq_right (by omega), List.take_of_length_le (by simp),
      List.take_of_length_le (by simp; omega)]

theorem flatMap_windows (s : Nat) : ∀ (m : Nat) (l : List Bytes), l.length ≤ m * s →
    (List.range m).flatMap (fun p => (l.drop (p * s)).take s) = l := by
  intro m
  induction m with
  | zero =>
    intro l hl
    have : l = [] := List.eq_nil_of_length_eq_zero (by omega)
    simp [this]
  | succ m ih =>
    intro l hl
    rw [List.range_succ_eq_map, List.flatMap_cons, List.flatMap_map]
    have hd : ∀ p : Nat, (l.drop (Nat.succ p * s)).take s = ((l.drop s).drop (p * s)).take s := by
      intro p
      rw [List.drop_drop, Nat.succ_mul, Nat.add_comm]
    simp only [hd, Nat.zero_mul, List.drop_zero]
    rw [ih (l.drop s) (by rw [List.length_drop, Nat.succ_mul] at *; omega)]
    exact List.take_append_drop s l

/-- C5: for every page size `0 < s` (an `int`), with `n` the number of keys under the prefix
that pass the filter (a slice length, so below `2^63`) and `sorted` their ascending list:
`ForS` returns for every page `p < ceil(n/s)` and visits exactly
`sorted[p*s : min(p*s+s, n)]`, and the keys visited for pages `0, ..., ceil(n/s)-1`,
concatenated in page order, are `sorted`, which is ascending and a rearrangement of the
matching keys. -/
theorem ForS_pages_partition {α : Type} (db : DB) (g : Gob α) (pfx : Bytes)
    (filter : Option (Bytes → Bool)) (s : Nat) (hs : 0 < s) (hs2 : s < 2 ^ 63)
    (hn : (matching db.intern pfx filter).length < 2 ^ 63) :
    (sortStrings (matching db.intern pfx filter)).Sorted (· ≤ ·) ∧
      (sortStrings (matching db.intern pfx filter)).Perm (matching db.intern pfx filter) ∧
      (∀ p : Nat, p < ((matching db.intern pfx filter).length + s - 1) / s →
        (DB.ForS db g pfx (p : Int) (s : Int) filter).isSome = true ∧
          visited (DB.ForS db g pfx (p : Int) (s : Int) filter) =
            ((sortStrings (matching db.intern pfx filter)).drop (p * s)).take
              (min (p * s + s) (matching db.intern pfx filter).length - p * s)) ∧
      (List.range (((matching db.intern pfx filter).length + s - 1) / s)).flatMap
          (fun p => visited (DB.ForS db g pfx (p : Int) (s : Int) filter)) =
        sortStrings (matching db.intern pfx filter) := by
  have hpage : ∀ p : Nat, p < ((matching db.intern pfx filter).length + s - 1) / s →
      (DB.ForS db g pfx (p : Int) (s : Int) filter).isSome = true ∧
        visited (DB.ForS db g pfx (p : Int) (s : Int) filter) =
          ((sortStrings (matching db.intern pfx filter)).drop (p * s)).take
            (min (p * s + s) (matching db.intern pfx filter).length - p * s) := by
    intro p hp
    have hlt := mul_lt_of_lt_pages _ s p hp
    exact visited_ForS db g pfx p s filter _
      (page_window (p : Int) (s : Int) _ (p * s) s rfl (by push_cast; rfl) hs hs2
        (Nat.le_of_lt hlt) hn)
  refine ⟨List.sorted_insertionSort _ _, List.perm_insertionSort _ _, hpage, ?_⟩
  have hcongr : ∀ p ∈ List.range (((matching db.intern pfx filter).length + s - 1) / s),
      visited (DB.ForS db g pfx (p : Int) (s : Int) filter) =
        ((sortStrings (matching db.intern pfx filter)).drop (p * s)).take s := by
    intro p hp
    have hp2 := List.mem_range.mp hp
    rw [(hpage p hp2).2]
    have := take_window (sortStrings (matching db.intern pfx filter)) (p * s) s
    rw [length_sortStrings] at this
    exact this
  rw [List.flatMap_congr hcongr]
  exact flatMap_windows s _ _ (by rw [length_sortStrings]; exact le_pages_mul _ s hs)

theorem ForS_pages_partition_witness :
    (0 < 2 ∧ 2 < 2 ^ 63 ∧ (matching fiveKeys.intern [] none).length < 2 ^ 63 ∧
        2 < ((matching fiveKeys.intern [] none).length + 2 - 1) / 2) ∧
      visited (DB.ForS fiveKeys byteGob [] ((2 : Nat) : Int) ((2 : Nat) : Int) none) = [[101]] :=
  ⟨by decide, ((ForS_pages_partition fiveKeys byteGob [] none 2 (by decide) (by decide)
    (by decide)).2.2.1 2 (by decide)).2.trans (by decide)⟩

/-- C6: for every store, prefix, filter (`nil` included), page and size, `ForS` returns, and
the total it returns is the number of keys of the store that begin with the prefix and pass
the filter (a slice length, so below `2^63`), whatever the page, the size and the codec. -/
theorem ForS_total {α : Type} (db : DB) (g : Gob α) (pfx : Bytes) (page size : Int)
    (filter : Option (Bytes → Bool))
    (hn : (matching db.intern pfx filter).length < 2 ^ 63) :
    ∃ calls, DB.ForS db g pfx page size filter =
      some (((matching db.intern pfx filter).length : Int), calls) := by
  obtain ⟨w, hw⟩ := page_isSome page size (matching db.intern pfx filter)
  exact ⟨_, by rw [ForS_eq db g pfx page size filter w hw, scan_fst _ _ _ hn]⟩

theorem ForS_total_witness :
    (matching corruptA.intern [] none).length < 2 ^ 63 ∧
      ∃ calls, DB.ForS corruptA byteGob [] 7 2 none =
        some (((matching corruptA.intern [] none).length : Int), calls) :=
  ⟨by decide, ForS_total corruptA byteGob [] 7 2 none (by decide)⟩

/-- C7, at the failing input: in `corruptA` the value of `"a"` fails to decode, and `ForS`
calls the visitor for `"a"` all the same, with the zero value: when size is 0, and when `"a"`
lies in the window of page 0 of size 2. -/
theorem ForS_visits_corrupt_entry :
    (byteGob.Decode [1, 1] byteGob.zero).2 = some Error.other ∧
      DB.ForS corruptA byteGob [] 0 0 none = some (3, [([99], 3), ([97], 0), ([98], 2)]) ∧
      DB.ForS corruptA byteGob [] 0 2 none = some (3, [([97], 0), ([98], 2)]) := by
  decide

/-- C8, counterexample: over the five keys with size 2 and page 4, the window start 8 lies
beyond the 5 matching keys; `ForS` visits the first two keys only, not all five. -/
theorem ForS_reset_not_all :
    wrapInt (4 * 2) > ((matching fiveKeys.intern [] none).length : Int) ∧
      visited (DB.ForS fiveKeys byteGob [] 4 2 none) = [[97], [98]] ∧
      sortStrings (matching fiveKeys.intern [] none) = [[97], [98], [99], [100], [101]] ∧
      visited (DB.ForS fiveKeys byteGob [] 4 2 none) ≠
        sortStrings (matching fiveKeys.intern [] none) := by
  decide

/-! ## Key codec: layout and decimal form -/

/-- C11: for every key `k`, `k.bytes()` is exactly 6 bytes long: byte 0 is `@` (0x40), byte 1
is `k` (0x6B), and byte `2+i` is `(k / 256^i) mod 256` for `i` in 0..3; `Key(0x12345678)`
encodes as `@k` followed by 0x78, 0x56, 0x34, 0x12. -/
theorem bytes_layout (k : Nat) :
    (Key.bytes k).length = 6 ∧ (Key.bytes k)[0]? = some 0x40 ∧ (Key.bytes k)[1]? = some 0x6B ∧
      (∀ i, i < 4 → (Key.bytes k)[2 + i]? = some (k / 256 ^ i % 256)) ∧
      Key.bytes 0x12345678 = [0x40, 0x6B, 0x78, 0x56, 0x34, 0x12] := by
  refine ⟨rfl, rfl, rfl, ?_, by decide⟩
  intro i hi
  have h : i = 0 ∨ i = 1 ∨ i = 2 ∨ i = 3 := by omega
  rcases h with h | h | h | h <;> subst h <;> simp [Key.bytes]

theorem digits_length (fuel : Nat) : ∀ (u : Nat) (acc : Bytes),
    acc.length ≤ (FormatUint.digits fuel u acc).length := by
  induction fuel with
  | zero => intro u acc; exact le_refl _
  | succ fuel ih =>
    intro u acc
    unfold FormatUint.digits
    split_ifs with h
    · simp
    · exact le_trans (by simp) (ih (u / 10) ((48 + u % 10) :: acc))

theorem FormatUint_length_pos (u : Nat) : 0 < (FormatUint u).length := by
  unfold FormatUint FormatUint.digits
  split_ifs with h
  · simp
  · exact lt_of_lt_of_le (by simp) (digits_length u (u / 10) [48 + u % 10])

theorem step_digits (fuel : Nat) : ∀ (u : Nat) (acc : Bytes), u < fuel → u ≤ 2 ^ 32 - 1 →
    (FormatUint.digits fuel u acc).foldl ParseUint.step (some 0) =
      acc.foldl ParseUint.step (some u) := by
  induction fuel with
  | zero => intro u acc h; omega
  | succ fuel ih =>
    intro u acc hf hu
    unfold FormatUint.digits
    split_ifs with h
    · have hs : ParseUint.step (some 0) (48 + u) = some u := by
        have h1 : 48 ≤ 48 + u ∧ 48 + u ≤ 57 := by omega
        have h2 : ¬ (u > 2 ^ 32 - 1) := by omega
        have h3 : 0 * 10 + (48 + u - 48) = u := by omega
        simp only [ParseUint.step, h1, and_self, if_true, h3, h2, if_false]
      rw [List.foldl_cons, hs]
    · have hs : ParseUint.step (some (u / 10)) (48 + u % 10) = some u := by
        have h1 : 48 ≤ 48 + u % 10 ∧ 48 + u % 10 ≤ 57 := by omega
        have h3 : u / 10 * 10 + (48 + u % 10 - 48) = u := by omega
        have h2 : ¬ (u > 2 ^ 32 - 1) := by omega
        simp only [ParseUint.step, h1, and_self, if_true, h3, h2, if_false]
      rw [ih (u / 10) _ (by omega) (by omega), List.foldl_cons, hs]

theorem ParseUint_FormatUint (u : Nat) (hu : u < 2 ^ 32) : ParseUint (FormatUint u) = some u := by
  have hl : (FormatUint u).length ≠ 0 := Nat.pos_iff_ne_zero.mp (FormatUint_length_pos u)
  unfold ParseUint
  rw [if_neg hl]
  unfold FormatUint
  rw [step_digits (u + 1) u [] (by omega) (by omega)]
  rfl

/-- C15: for every 32-bit key `k`, `KeyFromString(k.String()) == k`, where `k.String()` is
the base-10 numeral of `k`; `Key(305419896).String()` is `"305419896"`. -/
theorem KeyFromString_String (k : Nat) (hk : k < 2 ^ 32) :
    KeyFromString (Key.String k) = k ∧
      Key.String 305419896 = [51, 48, 53, 52, 49, 57, 56, 57, 54] := by
  refine ⟨?_, by decide⟩
  unfold KeyFromString Key.String
  rw [ParseUint_FormatUint k hk]
  exact Nat.mod_eq_of_lt hk

theorem KeyFromString_String_witness :
    (4294967295 : Nat) < 2 ^ 32 ∧ KeyFromString (Key.String 4294967295) = 4294967295 :=
  ⟨by decide, (KeyFromString_String 4294967295 (by decide)).1⟩

theorem foldl_step_none (s : Bytes) : s.foldl ParseUint.step none = none := by
  induction s with
  | nil => rfl
  | cons c s ih => exact ih

theorem foldl_step_not_digit (s : Bytes) (h : ∃ c ∈ s, ¬ (48 ≤ c ∧ c ≤ 57)) :
    ∀ acc : Option Nat, s.foldl ParseUint.step acc = none := by
  induction s with
  | nil => simp at h
  | cons c s ih =>
    intro acc
    rw [List.foldl_cons]
    by_cases hc : 48 ≤ c ∧ c ≤ 57
    · obtain ⟨d, hd, hnd⟩ := h
      rcases List.mem_cons.mp hd with rfl | hd
      · exact absurd hc hnd
      · exact ih ⟨d, hd, hnd⟩ _
    · have hs : ParseUint.step acc c = none := by
        cases acc with
        | none => rfl
        | some n => simp only [ParseUint.step, hc, if_false]
      rw [hs, foldl_step_none]

theorem le_foldl_value (s : Bytes) : ∀ n : Nat, n ≤ s.foldl (fun n c => n * 10 + (c - 48)) n := by
  induction s with
  | nil => intro n; exact le_refl _
  | cons c s ih =>
    intro n
    rw [List.foldl_cons]
    exact le_trans (by omega) (ih (n * 10 + (c - 48)))

theorem foldl_step_digits (s : Bytes) (h : ∀ c ∈ s, 48 ≤ c ∧ c ≤ 57) :
    ∀ n : Nat, s.foldl ParseUint.step (some n) =
      if s.foldl (fun n c => n * 10 + (c - 48)) n ≤ 2 ^ 32 - 1 ∨ s = [] then
        some (s.foldl (fun n c => n * 10 + (c - 48)) n)
      else none := by
  induction s with
  | nil => intro n; simp
  | cons c s ih =>
    intro n
    have hc := h c (List.mem_cons_self c s)
    have hs := fun d hd => h d (List.mem_cons_of_mem c hd)
    rw [List.foldl_cons, List.foldl_cons]
    by_cases hv : n * 10 + (c - 48) > 2 ^ 32 - 1
    · have h1 : ParseUint.step (some n) c = none := by
        simp only [ParseUint.step, hc, and_self, if_true, hv]
      have h2 := le_foldl_value s (n * 10 + (c - 48))
      have h3 : ¬ (s.foldl (fun n c => n * 10 + (c - 48)) (n * 10 + (c - 48)) ≤ 2 ^ 32 - 1 ∨
          c :: s = []) := by
        simp only [reduceCtorEq, or_false, not_le]
        omega
      rw [h1, foldl_step_none, if_neg h3]
    · have h1 : ParseUint.step (some n) c = some (n * 10 + (c - 48)) := by
        simp only [ParseUint.step, hc, and_self, if_true, hv, if_false]
      rw [h1, ih hs]
      by_cases hs0 : s = []
      · subst hs0
        have : n * 10 + (c - 48) ≤ 4294967295 := by omega
        simp [this]
      · simp [hs0]

/-- C16: `KeyFromString` returns 0 for every string on which the decimal parsing errors:
the empty string, any string containing a byte other than the digits `0` to `9`, and any
digit string whose value exceeds `2^32 - 1`. -/
theorem KeyFromString_error (s : Bytes)
    (h : s = [] ∨ (∃ c ∈ s, ¬ (48 ≤ c ∧ c ≤ 57)) ∨
      ((∀ c ∈ s, 48 ≤ c ∧ c ≤ 57) ∧ decimalValue s > 2 ^ 32 - 1)) :
    KeyFromString s = 0 := by
  have hp : ParseUint s = none := by
    unfold ParseUint
    rcases h with h | h | ⟨h1, h2⟩
    · simp [h]
    · split_ifs
      · rfl
      · exact foldl_step_not_digit s h _
    · split_ifs with h0
      · rfl
      · have hne : s ≠ [] := fun e => h0 (by simp [e])
        rw [foldl_step_digits s h1 0]
        have : ¬ (s.foldl (fun n c => n * 10 + (c - 48)) 0 ≤ 2 ^ 32 - 1 ∨ s = []) := by
          unfold decimalValue at h2
          simp only [hne, or_false, not_le]
          omega
        rw [if_neg this]
  unfold KeyFromString
  rw [hp]

theorem KeyFromString_error_witness :
    (([52, 50, 57, 52, 57, 54, 55, 50, 57, 54] : Bytes) = [] ∨
        (∃ c ∈ ([52, 50, 57, 52, 57, 54, 55, 50, 57, 54] : Bytes), ¬ (48 ≤ c ∧ c ≤ 57)) ∨
        ((∀ c ∈ ([52, 50, 57, 52, 57, 54, 55, 50, 57, 54] : Bytes), 48 ≤ c ∧ c ≤ 57) ∧
          decimalValue [52, 50, 57, 52, 57, 54, 55, 50, 57, 54] > 2 ^ 32 - 1)) ∧
      KeyFromString [52, 50, 57, 52, 57, 54, 55, 50, 57, 54] = 0 :=
  ⟨Or.inr (Or.inr (by decide)),
    KeyFromString_error [52, 50, 57, 52, 57, 54, 55, 50, 57, 54] (Or.inr (Or.inr (by decide)))⟩

/-! ## Set, Get and DeleteAll -/

theorem lookup_replace (key value : Bytes) (es : List (Bytes × Bytes))
    (h : key ∈ es.map Prod.fst) :
    (es.map (fun e => if e.1 = key then (key, value) else e)).lookup key = some value := by
  induction es with
  | nil => simp at h
  | cons e es ih =>
    by_cases he : e.1 = key
    · rw [List.map_cons, if_pos he, List.lookup_cons, beq_self_eq_true]
    · have hne : (key == e.1) = false := by
        simp only [beq_eq_false_iff_ne, ne_eq]
        exact fun h1 => he h1.symm
      have hmem : key ∈ es.map Prod.fst := by
        rw [List.map_cons] at h
        rcases List.mem_cons.mp h with h1 | h1
        · exact absurd h1.symm he
        · exact h1
      rw [List.map_cons, if_neg he, List.lookup_cons, hne]
      exact ih hmem

theorem lookup_append_new (key value : Bytes) (es : List (Bytes × Bytes))
    (h : key ∉ es.map Prod.fst) : (es ++ [(key, value)]).lookup key = some value := by
  induction es with
  | nil => simp [List.lookup]
  | cons e es ih =>
    have hne : (key == e.1) = false := by
      simp only [beq_eq_false_iff_ne, ne_eq]
      intro h1
      exact h (by simp [h1])
    have hmem : key ∉ es.map Prod.fst := fun h1 => h (by simp at h1 ⊢; exact Or.inr h1)
    rw [List.cons_append, List.lookup_cons, hne]
    exact ih hmem

theorem lookup_absent (key : Bytes) (es : List (Bytes × Bytes))
    (h : key ∉ es.map Prod.fst) : es.lookup key = none := by
  induction es with
  | nil => rfl
  | cons e es ih =>
    have hne : (key == e.1) = false := by
      simp only [beq_eq_false_iff_ne, ne_eq]
      intro h1
      exact h (by simp [h1])
    have hmem : key ∉ es.map Prod.fst := fun h1 => h (by simp at h1 ⊢; exact Or.inr h1)
    rw [List.lookup_cons, hne]
    exact ih hmem

theorem Has_iff (b : Bitcask) (key : Bytes) : b.Has key = true ↔ key ∈ b.entries.map Prod.fst := by
  simp [Bitcask.Has, Bitcask.keys]

theorem Get_Put (b : Bitcask) (key value : Bytes) :
    (b.Put key value).1.Get key = (some value, none) := by
  unfold Bitcask.Put Bitcask.Get
  by_cases h : b.Has key = true
  · simp only [h, if_true, lookup_replace key value b.entries ((Has_iff b key).mp h)]
  · have hn : key ∉ b.entries.map Prod.fst := fun h1 => h ((Has_iff b key).mpr h1)
    simp only [h, Bool.false_eq_true, if_false, lookup_append_new key value b.entries hn]

theorem Get_absent (b : Bitcask) (key : Bytes) (h : b.Has key = false) :
    b.Get key = (none, some Error.ErrKeyNotFound) := by
  have hn : key ∉ b.entries.map Prod.fst := fun h1 => by
    rw [(Has_iff b key).mpr h1] at h
    exact Bool.noConfusion h
  unfold Bitcask.Get
  rw [lookup_absent key b.entries hn]

theorem parse_set {α : Type} (db : DB) (g : Gob α) (key : Bytes) (v t : α)
    (hD : (g.Decode (g.Encode v).1 g.zero).1 = v) :
    (db.set g key v).parse g key t = (false, v, db.set g key v) := by
  have hget : (db.set g key v).intern.Get key = (some (g.Encode v).1, none) := by
    simp only [DB.set, print_eq_false, Bool.false_eq_true, if_false]
    exact Get_Put db.intern key (g.Encode v).1
  unfold DB.parse
  simp only [hget, print_eq_false, Bool.false_eq_true, if_false, Option.getD_some, hD,
    reduceCtorEq]

/-- C12: for every key and every value `v` whose encoding the codec decodes back to `v`
without error, `Set(key, v)` followed by `Get(key, &t)` returns `noExist = false` and
leaves `t` equal to `v`, whatever `t` held before; likewise for `SetS` and `GetS`. -/
theorem Get_after_Set {α : Type} (db : DB) (g : Gob α) (v t : α)
    (hD : g.Decode (g.Encode v).1 g.zero = (v, none)) :
    (∀ key : Nat, ((db.Set g key v).Get g key t).1 = false ∧
        ((db.Set g key v).Get g key t).2.1 = v) ∧
      (∀ key : Bytes, ((db.SetS g key v).GetS g key t).1 = false ∧
        ((db.SetS g key v).GetS g key t).2.1 = v) := by
  have hD1 : (g.Decode (g.Encode v).1 g.zero).1 = v := by rw [hD]
  constructor
  · intro key
    unfold DB.Get DB.Set
    rw [parse_set db g (Key.bytes key) v t hD1]
    exact ⟨rfl, rfl⟩
  · intro key
    unfold DB.GetS DB.SetS
    rw [parse_set db g key v t hD1]
    exact ⟨rfl, rfl⟩

theorem Get_after_Set_witness :
    byteGob.Decode (byteGob.Encode 7).1 byteGob.zero = (7, none) ∧
      ((oneKey.Set byteGob 3 7).Get byteGob 3 9).1 = false ∧
      ((oneKey.Set byteGob 3 7).Get byteGob 3 9).2.1 = 7 :=
  ⟨by decide, (Get_after_Set oneKey byteGob 7 9 (by decide)).1 3⟩

/-- C13: for every key absent from the store (string key `skey` for `GetS`, numeric key
`nkey` for `Get`) and every prior content `t` of the target, `Get`/`GetS` returns
`noExist = true`, sets the target to the zero value of its type, and leaves the DB as it
was. -/
theorem Get_absent_key {α : Type} (db : DB) (g : Gob α) (skey : Bytes) (nkey : Nat) (t : α)
    (hS : db.UnknownS skey = true) (hN : db.Unknown nkey = true) :
    db.GetS g skey t = (true, g.zero, db) ∧ db.Get g nkey t = (true, g.zero, db) := by
  have h1 : db.intern.Has skey = false := by
    simpa [DB.UnknownS] using hS
  have h2 : db.intern.Has (Key.bytes nkey) = false := by
    simpa [DB.Unknown] using hN
  constructor
  · unfold DB.GetS DB.parse
    simp only [Get_absent db.intern skey h1, if_true]
  · unfold DB.Get DB.parse
    simp only [Get_absent db.intern (Key.bytes nkey) h2, if_true]

theorem Get_absent_key_witness :
    (oneKey.UnknownS [98] = true ∧ oneKey.Unknown 1 = true) ∧
      oneKey.GetS byteGob [98] 9 = (true, 0, oneKey) ∧
      oneKey.Get byteGob 1 9 = (true, 0, oneKey) :=
  ⟨by decide, Get_absent_key oneKey byteGob [98] 1 9 (by decide) (by decide)⟩

/-- C14, at the failing input: `byteGob` fails to serialize 300; `SetS("a", 300)` on the
store where `"a"` holds the byte 5 overwrites the entry with the empty buffer, and
`Set(1, 300)` on the empty store writes a new entry: the store is not what it was. -/
theorem Set_encode_error_writes :
    (byteGob.Encode 300).2 = some Error.other ∧
      oneKey.SetS byteGob [97] 300 = ⟨⟨[([97], [])]⟩, 0⟩ ∧
      oneKey.SetS byteGob [97] 300 ≠ oneKey ∧
      DB.Set ⟨emptyStore, 0⟩ byteGob 1 300 = ⟨⟨[(Key.bytes 1, [])]⟩, 0⟩ := by
  decide

/-- C17: for every DB state, after `DeleteAll` the next call of `DB.New()` returns 0 and
every key, numeric or string, is unknown. -/
theorem DeleteAll_resets (db : DB) :
    (DB.New (DB.DeleteAll db)).1 = 0 ∧
      (∀ key : Nat, (DB.DeleteAll db).Unknown key = true) ∧
      (∀ key : Bytes, (DB.DeleteAll db).UnknownS key = true) :=
  ⟨by simp [DB.New, DB.DeleteAll], fun _ => rfl, fun _ => rfl⟩

/-- C19, at the failing input: called with a non-nil error (`bitcask.ErrKeyNotFound`, or any
other error, with an empty or a non-empty key), `DB.print` returns false. -/
theorem print_error_returns_false :
    DB.print oneKey (some Error.other) [97] = false ∧
      DB.print oneKey (some Error.ErrKeyNotFound) [] = false := by
  decide

/-! ## Scan: size zero and window bounds -/

/-- With size 0, `ForS` calls the visitor on every matching key, once, in scan order. -/
theorem ForS_size_zero {α : Type} (db : DB) (g : Gob α) (pfx : Bytes) (page : Int)
    (filter : Option (Bytes → Bool)) :
    visited (DB.ForS db g pfx page 0 filter) = matching db.intern pfx filter :=
  (visited_ForS db g pfx page 0 filter _ (by simp [DB.page])).2

/-- C18, at the failing input: in `corruptA` the value of `"a"` fails to decode; with size 0,
page 3 and the filter that drops `"c"`, `ForS` calls the visitor on `"a"` (with the zero
value) as well as on `"b"`, the only matching key that holds a decodable value. -/
theorem ForS_size_zero_visits_corrupt :
    (byteGob.Decode [1, 1] byteGob.zero).2 = some Error.other ∧
      matching corruptA.intern [] (some notC) = [[97], [98]] ∧
      DB.ForS corruptA byteGob [] 3 0 (some notC) = some (2, [([97], 0), ([98], 2)]) := by
  decide

theorem page_sublist (page size : Int) (all : List Bytes)
    (hp : 0 ≤ page) (hs : 0 < size) (hs2 : size < 2 ^ 63) (hprod : page * size < 2 ^ 63)
    (hn : all.length < 2 ^ 63) :
    ∃ w, DB.page page size all = some w ∧ w.Sublist (sortStrings all) ∧
      (w.length : Int) ≤ size := by
  have hnn : 0 ≤ page * size := mul_nonneg hp (le_of_lt hs)
  have hsz : size = ((size.toNat : Nat) : Int) := by omega
  have hpz : page * size = (((page * size).toNat : Nat) : Int) := by omega
  by_cases hb : (page * size).toNat ≤ all.length
  · refine ⟨_, page_window page size all (page * size).toNat size.toNat hsz hpz (by omega)
      (by omega) hb hn, ?_, ?_⟩
    · exact (List.take_sublist _ _).trans (List.drop_sublist _ _)
    · have hl := List.length_take_le
        (min ((page * size).toNat + size.toNat) all.length - (page * size).toNat)
        (List.drop (page * size).toNat (sortStrings all))
      omega
  · have hw : wrapInt (page * size) = page * size := wrapInt_of_range _ (by omega) hprod
    have hbeg : wrapInt (page * size) < 0 ∨ wrapInt (page * size) > (all.length : Int) := by
      rw [hw]
      omega
    have hneg : ¬ size < 0 := by omega
    refine ⟨_, page_reset page size all (by omega) (by omega) hs2 hbeg, ?_, ?_⟩
    · rw [if_neg hneg]
      exact List.take_sublist _ _
    · rw [if_neg hneg]
      have hl := List.length_take_le size.toNat (sortStrings all)
      omega

theorem mem_matching (b : Bitcask) (pfx : Bytes) (filter : Option (Bytes → Bool)) (k : Bytes)
    (h : k ∈ matching b pfx filter) :
    pfx <+: k ∧ DB.filterOrAll filter k = true ∧ k ∈ b.keys := by
  unfold matching at h
  have h1 := List.mem_filter.mp h
  cases filter with
  | none =>
    have h2 : pfx.isPrefixOf k = true := by simpa using h1.2
    exact ⟨List.isPrefixOf_iff_prefix.mp h2, rfl, h1.1⟩
  | some f =>
    have h2 : pfx.isPrefixOf k = true ∧ f k = true := by simpa using h1.2
    exact ⟨List.isPrefixOf_iff_prefix.mp h2.1, h2.2, h1.1⟩

/-- C20: for every store that holds each key once, every prefix and filter, every page `≥ 0`
and size `> 0` whose product does not overflow the 64-bit `int` (with the number of matching
keys, a slice length, below `2^63`): `ForS` returns, it calls the visitor at most `size`
times, only on keys of the store that begin with the prefix and pass the filter, and in
strictly ascending lexicographic key order. -/
theorem ForS_window_bounds {α : Type} (db : DB) (g : Gob α) (pfx : Bytes) (page size : Int)
    (filter : Option (Bytes → Bool))
    (hp : 0 ≤ page) (hs : 0 < size) (hs2 : size < 2 ^ 63) (hprod : page * size < 2 ^ 63)
    (hn : (matching db.intern pfx filter).length < 2 ^ 63) (hnd : db.intern.keys.Nodup) :
    ∃ total calls, DB.ForS db g pfx page size filter = some (total, calls) ∧
      (calls.length : Int) ≤ size ∧
      (∀ c ∈ calls, pfx <+: c.1 ∧ DB.filterOrAll filter c.1 = true ∧ c.1 ∈ db.intern.keys) ∧
      (calls.map Prod.fst).Sorted (· < ·) := by
  obtain ⟨w, hw, hsub, hlen⟩ :=
    page_sublist page size (matching db.intern pfx filter) hp hs hs2 hprod hn
  have hkeys := filterMap_visit_keys db g w
  refine ⟨_, _, ForS_eq db g pfx page size filter w hw, ?_, ?_, ?_⟩
  · have : (w.filterMap (db.visit g)).length = w.length := by
      rw [← List.length_map (w.filterMap (db.visit g)) Prod.fst, hkeys]
    rw [this]
    exact hlen
  · intro c hc
    have h1 : c.1 ∈ w := by
      rw [← hkeys]
      exact List.mem_map_of_mem Prod.fst hc
    have h2 : c.1 ∈ matching db.intern pfx filter :=
      (List.perm_insertionSort _ _).mem_iff.mp (hsub.subset h1)
    exact mem_matching db.intern pfx filter c.1 h2
  · rw [hkeys]
    have hnd2 : (matching db.intern pfx filter).Nodup :=
      List.Nodup.sublist (List.filter_sublist _) hnd
    have hnd3 : (sortStrings (matching db.intern pfx filter)).Nodup :=
      (List.perm_insertionSort _ _).nodup_iff.mpr hnd2
    have hsorted : (sortStrings (matching db.intern pfx filter)).Sorted (· < ·) :=
      List.Sorted.lt_of_le (List.sorted_insertionSort _ _) hnd3
    exact List.Pairwise.sublist hsub hsorted

theorem ForS_window_bounds_witness :
    ((0 : Int) ≤ 1 ∧ (0 : Int) < 2 ∧ (2 : Int) < 2 ^ 63 ∧ (1 : Int) * 2 < 2 ^ 63 ∧
        (matching fiveKeys.intern [] none).length < 2 ^ 63 ∧ fiveKeys.intern.keys.Nodup) ∧
      ∃ total calls, DB.ForS fiveKeys byteGob [] 1 2 none = some (total, calls) ∧
        (calls.length : Int) ≤ 2 ∧
        (∀ c ∈ calls, [] <+: c.1 ∧ DB.filterOrAll none c.1 = true ∧
          c.1 ∈ fiveKeys.intern.keys) ∧
        (calls.map Prod.fst).Sorted (· < ·) :=
  ⟨by decide, ForS_window_bounds fiveKeys byteGob [] 1 2 none (by decide) (by decide)
    (by decide) (by decide) (by decide) (by decide)⟩

/-! ## Scan: the window after a reset -/

theorem lookup_present (key : Bytes) (es : List (Bytes × Bytes))
    (h : key ∈ es.map Prod.fst) : ∃ value, es.lookup key = some value := by
  induction es with
  | nil => simp at h
  | cons e es ih =>
    rw [List.lookup_cons]
    by_cases he : key = e.1
    · exact ⟨e.2, by rw [he, beq_self_eq_true]⟩
    · have hne : (key == e.1) = false := by
        simp only [beq_eq_false_iff_ne, ne_eq]
        exact he
      have hmem : key ∈ es.map Prod.fst := by
        rw [List.map_cons] at h
        rcases List.mem_cons.mp h with h1 | h1
        · exact absurd h1 he
        · exact h1
      rw [hne]
      exact ih hmem

theorem Get_present (b : Bitcask) (key : Bytes) (h : key ∈ b.keys) : (b.Get key).2 = none := by
  obtain ⟨value, hv⟩ := lookup_present key b.entries h
  unfold Bitcask.Get
  rw [hv]

/-- A turn of the loop on a key of the store whose value decodes without error calls the
visitor: both tests of `DB.print` are made on a nil error. -/
theorem visit_of_decodes {α : Type} (db : DB) (g : Gob α) (key : Bytes)
    (hk : key ∈ db.intern.keys)
    (hd : (g.Decode ((db.intern.Get key).1.getD []) g.zero).2 = none) :
    db.visit g key = some (key, (g.Decode ((db.intern.Get key).1.getD []) g.zero).1) := by
  have hnil : db.print none key = false := rfl
  unfold DB.visit
  simp only [Get_present db.intern key hk, hd, hnil, Bool.false_eq_true, if_false]

theorem filterMap_visit_of_decodes {α : Type} (db : DB) (g : Gob α) (w : List Bytes)
    (h : ∀ k ∈ w, k ∈ db.intern.keys ∧
      (g.Decode ((db.intern.Get k).1.getD []) g.zero).2 = none) :
    (w.filterMap (db.visit g)).map Prod.fst = w := by
  induction w with
  | nil => rfl
  | cons k ks ih =>
    have hk := h k (List.mem_cons_self k ks)
    have hks := fun d hd => h d (List.mem_cons_of_mem k hd)
    rw [List.filterMap_cons, visit_of_decodes db g k hk.1 hk.2, List.map_cons, ih hks]

/-- C8, amended: in `ForS` with a nonzero size (an `int`), when the window start `page*size`,
as the 64-bit product, is negative or lies beyond the number `n` of matching keys, the start
resets to zero and the window keeps its length: assuming all values of the matching keys
decode, `ForS` returns and visits the first `min(size, n)` matching keys in ascending order
when `size > 0`, and all `n` of them when `size < 0`. -/
theorem ForS_reset_window {α : Type} (db : DB) (g : Gob α) (pfx : Bytes) (page size : Int)
    (filter : Option (Bytes → Bool)) (hsz : size ≠ 0)
    (hr0 : -(2 ^ 63) ≤ size) (hr1 : size < 2 ^ 63)
    (hbeg : wrapInt (page * size) < 0 ∨
      wrapInt (page * size) > ((matching db.intern pfx filter).length : Int))
    (hdec : ∀ k ∈ matching db.intern pfx filter,
      (g.Decode ((db.intern.Get k).1.getD []) g.zero).2 = none) :
    (DB.ForS db g pfx page size filter).isSome = true ∧
      visited (DB.ForS db g pfx page size filter) =
        if size < 0 then sortStrings (matching db.intern pfx filter)
        else (sortStrings (matching db.intern pfx filter)).take size.toNat := by
  have hw := page_reset page size (matching db.intern pfx filter) hsz hr0 hr1 hbeg
  rw [ForS_eq db g pfx page size filter _ hw]
  refine ⟨rfl, ?_⟩
  show List.map Prod.fst (List.filterMap (db.visit g) _) = _
  apply filterMap_visit_of_decodes
  intro k hk
  have hsorted : k ∈ sortStrings (matching db.intern pfx filter) := by
    split_ifs at hk
    · exact hk
    · exact (List.take_sublist _ _).subset hk
  have hm : k ∈ matching db.intern pfx filter :=
    (List.perm_insertionSort _ _).mem_iff.mp hsorted
  exact ⟨(mem_matching db.intern pfx filter k hm).2.2, hdec k hm⟩

theorem ForS_reset_window_witness :
    ((2 : Int) ≠ 0 ∧ -(2 ^ 63) ≤ (2 : Int) ∧ (2 : Int) < 2 ^ 63 ∧
        (wrapInt (4 * 2) < 0 ∨
          wrapInt (4 * 2) > ((matching fiveKeys.intern [] none).length : Int)) ∧
        (∀ k ∈ matching fiveKeys.intern [] none,
          (byteGob.Decode ((fiveKeys.intern.Get k).1.getD []) byteGob.zero).2 = none)) ∧
      visited (DB.ForS fiveKeys byteGob [] 4 2 none) =
        (sortStrings (matching fiveKeys.intern [] none)).take 2 :=
  ⟨by decide, (ForS_reset_window fiveKeys byteGob [] 4 2 none (by decide) (by decide)
    (by decide) (by decide) (by decide)).2⟩

end GoDB
